import Mathlib

/-!
Verification of the Rustorium in-memory blockchain core
(`src/api_server/blockchain.py`) against its natural-language
specification.

Shallow embedding conventions:
* Python floats (amounts, fees, timestamps) are modelled as exact
  rationals `ℚ`.
* `uuid.uuid4()`-derived transaction identifiers are modelled by a
  deterministic counter `nextId` threaded through the ledger state;
  identifiers are `Nat`.
* `time.time()` is modelled by an explicit `now : ℚ` argument to
  every operation that reads the clock.
* SHA-256 (`hashlib.sha256(...).hexdigest()`) is modelled as an
  abstract function `H : HashInput → String` over exactly the fields
  the source serialises in `Block.calculate_hash`; collision
  behaviour of the concrete hash is a hypothesis of the theorems
  that need it, never an assumption baked into a definition.
* Python dict aliasing (block transaction records are mutated in
  place by some lookups) is made explicit by state passing: every
  operation returns the updated `Blockchain` state.
* `Block.size` (a JSON byte length) is not modelled; it is not part
  of the hashed content and no claim mentions it.
* Rational arithmetic inside the executable definitions is written
  with the helpers `qAdd`, `qSub`, `qMul`, `qDiv`, `qSum` below, which
  are proved equal to the field operations of `ℚ` (`qAdd_eq` etc.);
  they exist only because the library's `Rat.add`/`Rat.mul`/... are
  sealed against definitional unfolding, which would prevent concrete
  witness states from being evaluated inside proofs.
-/

/-- Addition on `ℚ` through the smart constructor; equal to `+` by
`qAdd_eq`. -/
def qAdd (a b : ℚ) : ℚ := mkRat (a.num * b.den + b.num * a.den) (a.den * b.den)

/-- Subtraction on `ℚ` through the smart constructor; equal to `-` by
`qSub_eq`. -/
def qSub (a b : ℚ) : ℚ := mkRat (a.num * b.den - b.num * a.den) (a.den * b.den)

/-- Multiplication on `ℚ` through the smart constructor; equal to `*`
by `qMul_eq`. -/
def qMul (a b : ℚ) : ℚ := mkRat (a.num * b.num) (a.den * b.den)

/-- Division on `ℚ` through the smart constructor; equal to `/` by
`qDiv_eq`. -/
def qDiv (a b : ℚ) : ℚ := Rat.divInt (a.num * b.den) (a.den * b.num)

/-- Sum of a list of rationals via `qAdd`; equal to `List.sum` by
`qSum_eq`. -/
def qSum (l : List ℚ) : ℚ := l.foldr qAdd 0

/-- Transaction status strings `"Pending" / "Confirmed" / "Failed"`. -/
inductive TxStatus where
  | Pending
  | Confirmed
  | Failed
deriving DecidableEq

/-- A transaction.  The same structure models both the `Transaction`
object and the dict produced by `Transaction.to_dict`, which has
exactly the same thirteen fields; copying is explicit in the
functional embedding. -/
structure Transaction where
  id : Nat
  sender : String
  recipient : String
  amount : ℚ
  fee : ℚ
  data : String
  nonce : Nat
  timestamp : ℚ
  status : TxStatus
  block_number : Option Nat
  gas_price : Nat
  gas_limit : Nat
  gas_used : Nat
deriving DecidableEq

/-- `Transaction.__init__`: gas accounting and fee derivation.
`gas_used` starts at 21000, grows by `68 * len(data)` when the data
field is nonempty (Python truthiness of the string), is capped at
`gas_limit`, and the caller-supplied `fee` argument is overwritten by
`gas_used * gas_price / 1e9`. -/
def Transaction.create (sender recipient : String) (amount fee : ℚ)
    (data : String) (nonce : Nat) (gas_price gas_limit : Nat)
    (id : Nat) (now : ℚ) : Transaction :=
  let gas0 : Nat := if data = "" then 21000 else 21000 + data.length * 68
  let gasUsed := min gas0 gas_limit
  { id := id
    sender := sender
    recipient := recipient
    amount := amount
    fee := qDiv (qMul (gasUsed : ℚ) (gas_price : ℚ)) 1000000000
    data := data
    nonce := nonce
    timestamp := now
    status := TxStatus.Pending
    block_number := none
    gas_price := gas_price
    gas_limit := gas_limit
    gas_used := gasUsed }

/-- `Transaction.to_dict`: the serialised record carries the same
thirteen fields with the same values; in the embedding it is a
by-value copy of the transaction. -/
def Transaction.to_dict (t : Transaction) : Transaction := t

/-- The fields serialised by `Block.calculate_hash`, in source order:
index, transactions, timestamp, previous_hash, validator, nonce. -/
structure HashInput where
  index : Nat
  transactions : List Transaction
  timestamp : ℚ
  previous_hash : String
  validator : String
  nonce : Nat
deriving DecidableEq

/-- A block.  `size` (JSON byte length) is omitted, see the header
comment. -/
structure Block where
  index : Nat
  transactions : List Transaction
  timestamp : ℚ
  previous_hash : String
  validator : String
  difficulty : Nat
  nonce : Nat
  hash : String
  gas_used : Nat
  gas_limit : Nat
deriving DecidableEq

/-- The serialised content fed to the hash, per `Block.calculate_hash`. -/
def Block.hashInput (b : Block) : HashInput :=
  ⟨b.index, b.transactions, b.timestamp, b.previous_hash, b.validator, b.nonce⟩

/-- `Block.calculate_hash`, with SHA-256-of-JSON abstracted as `H`. -/
def Block.calculate_hash (H : HashInput → String) (b : Block) : String :=
  H b.hashInput

/-- `Block.__init__`: nonce starts at 0, the hash is computed from the
initial fields, `gas_used` is the sum over the embedded records and
`gas_limit` is the fixed constant 10000000. -/
def Block.create (H : HashInput → String) (index : Nat)
    (transactions : List Transaction) (timestamp : ℚ)
    (previous_hash : String) (validator : String) (difficulty : Nat) :
    Block :=
  let b : Block :=
    { index := index
      transactions := transactions
      timestamp := timestamp
      previous_hash := previous_hash
      validator := validator
      difficulty := difficulty
      nonce := 0
      hash := ""
      gas_used := (transactions.map Transaction.gas_used).sum
      gas_limit := 10000000 }
  { b with hash := Block.calculate_hash H b }

/-- The difficulty target check `self.hash[:difficulty] == "0"*difficulty`,
written on the character list of the hash string. -/
def Block.hashMeetsDifficulty (b : Block) : Prop :=
  b.hash.data.take b.difficulty = List.replicate b.difficulty '0'

instance (b : Block) : Decidable b.hashMeetsDifficulty := by
  unfold Block.hashMeetsDifficulty; infer_instance

/-- One nonce step of the mining loop: bump the nonce and recompute
the hash. -/
def Block.withNonce (H : HashInput → String) (b : Block) (n : Nat) : Block :=
  let b1 := { b with nonce := n }
  { b1 with hash := Block.calculate_hash H b1 }

/-- The `while` loop of `Block.mine_block`, with explicit fuel.  The
Python loop runs unboundedly until the difficulty target is met;
`none` means the loop is still running after `fuel` nonce bumps. -/
def Block.mineAux (H : HashInput → String) : Nat → Block → Option Block
  | fuel, b =>
    if b.hashMeetsDifficulty then some b
    else
      match fuel with
      | 0 => none
      | f + 1 => Block.mineAux H f (Block.withNonce H b (b.nonce + 1))

/-- `Block.mine_block(difficulty=None)`: optional difficulty override,
then the proof-of-work loop. -/
def Block.mine_block (H : HashInput → String) (d : Option Nat) (fuel : Nat)
    (b : Block) : Option Block :=
  Block.mineAux H fuel
    (match d with
     | some d0 => { b with difficulty := d0 }
     | none => b)

/-- An account record (`Account.__init__`).  `tokens` is created empty
and never written anywhere in the source. -/
structure Account where
  address : String
  private_key : Option String
  balance : ℚ
  is_contract : Bool
  nonce : Nat
  transaction_count : Nat
  last_activity : ℚ
  tokens : List (String × ℚ)
deriving DecidableEq

/-- `Account.__init__` with the source's defaults filled in by the
callers: transaction_count 0, last_activity the current time, empty
token map. -/
def Account.new (address : String) (private_key : Option String)
    (balance : ℚ) (is_contract : Bool) (nonce : Nat) (now : ℚ) : Account :=
  { address := address
    private_key := private_key
    balance := balance
    is_contract := is_contract
    nonce := nonce
    transaction_count := 0
    last_activity := now
    tokens := [] }

/-- Lookup in the account dictionary (first matching key). -/
def aget : List (String × Account) → String → Option Account
  | [], _ => none
  | (k, v) :: r, k' => if k' = k then some v else aget r k'

/-- Write to the account dictionary: update the existing key in place
(Python dicts keep the key's position) or append a new entry. -/
def aset : List (String × Account) → String → Account → List (String × Account)
  | [], k, v => [(k, v)]
  | (k1, v1) :: r, k, v =>
      if k = k1 then (k1, v) :: r else (k1, v1) :: aset r k v

/-- The reserved system address used as the sender of mining rewards. -/
def systemAddress : String := "0x0000000000000000000000000000000000000000"

/-- The whole ledger state (`Blockchain.__init__` fields, plus the
deterministic id supply standing in for `uuid4`). -/
structure Blockchain where
  chain : List Block
  pending_transactions : List Transaction
  accounts : List (String × Account)
  nextId : Nat
deriving DecidableEq

/-- `Blockchain.create_genesis_block`: `Block(0, [], time.time(), "0",
"0x0000...0000")` (default difficulty 4), with the hash recomputed
(idempotently) right after construction. -/
def genesisBlock (H : HashInput → String) (now : ℚ) : Block :=
  let g := Block.create H 0 [] now "0" systemAddress 4
  { g with hash := Block.calculate_hash H g }

/-- The three development accounts seeded by `_create_initial_accounts`. -/
def initialAccounts (now : ℚ) : List (String × Account) :=
  [ ("0x1234567890abcdef1234567890abcdef12345678",
      Account.new "0x1234567890abcdef1234567890abcdef12345678"
        (some "0xabcdef1234567890abcdef1234567890abcdef1234567890abcdef1234567890")
        1000000 false 0 now),
    ("0xabcdef1234567890abcdef1234567890abcdef12",
      Account.new "0xabcdef1234567890abcdef1234567890abcdef12"
        (some "0x1234567890abcdef1234567890abcdef1234567890abcdef1234567890abcdef")
        500000 false 0 now),
    ("0x9876543210fedcba9876543210fedcba98765432",
      Account.new "0x9876543210fedcba9876543210fedcba98765432"
        (some "0xfedcba9876543210fedcba9876543210fedcba9876543210fedcba9876543210")
        750000 false 0 now) ]

/-- `Blockchain.__init__`: genesis block plus the initial accounts. -/
def Blockchain.init (H : HashInput → String) (now : ℚ) : Blockchain :=
  { chain := [genesisBlock H now]
    pending_transactions := []
    accounts := initialAccounts now
    nextId := 0 }

/-- The two error exits of `Blockchain.add_transaction`. -/
inductive StageError where
  | UnknownSender
  | InsufficientBalance
deriving DecidableEq

/-- `Blockchain.add_transaction` (dict branch, the one exercised by the
API): build the transaction (consuming a uuid), fail if the sender is
unknown, create the recipient account if absent, fail if the sender's
balance is below `amount + fee`, otherwise stamp the sender's nonce on
the transaction, append it to the pending pool and bump the sender's
nonce.  On failure the exception propagates but all mutations already
performed (uuid consumption, recipient creation) persist, exactly as
in the in-place Python object. -/
def Blockchain.add_transaction (sender recipient : String) (amount : ℚ)
    (data : String) (gas_price gas_limit : Nat) (now : ℚ)
    (s : Blockchain) : Except StageError Nat × Blockchain :=
  let tx := Transaction.create sender recipient amount 0 data 0
    gas_price gas_limit s.nextId now
  let s1 := { s with nextId := s.nextId + 1 }
  match aget s1.accounts sender with
  | none => (Except.error StageError.UnknownSender, s1)
  | some senderAccount =>
    let s2 :=
      match aget s1.accounts recipient with
      | none =>
          { s1 with
              accounts := aset s1.accounts recipient
                (Account.new recipient none 0 false 0 now) }
      | some _ => s1
    if senderAccount.balance < qAdd tx.amount tx.fee then
      (Except.error StageError.InsufficientBalance, s2)
    else
      let tx1 := { tx with nonce := senderAccount.nonce }
      (Except.ok tx1.id,
        { s2 with
            pending_transactions := s2.pending_transactions ++ [tx1],
            accounts := aset s2.accounts sender
              { senderAccount with nonce := senderAccount.nonce + 1 } })

/-- The synthetic mining reward: `Transaction(sender=system,
recipient=miner, amount=5.0, fee=0)` with status forced to Confirmed.
Note the `fee=0` argument is overwritten by the gas derivation, so the
reward actually carries fee `21000 * 5 / 1e9`. -/
def rewardTransaction (miner : String) (id : Nat) (now : ℚ) : Transaction :=
  { Transaction.create systemAddress miner 5 0 "" 0 5 21000 id now with
      status := TxStatus.Confirmed }

/-- The sender-debit half of `Blockchain._process_transaction`: debit
`amount + fee` from the sender unless it is the system address
(silently skipping a missing sender), bumping its transaction count
and activity time.  Split out of `process_transaction` purely to keep
proofs manageable. -/
def debitSender (accounts : List (String × Account)) (tx : Transaction) :
    List (String × Account) :=
  if tx.sender = systemAddress then accounts
  else
    match aget accounts tx.sender with
    | none => accounts
    | some snd =>
        aset accounts tx.sender
          { snd with
              balance := qSub snd.balance (qAdd tx.amount tx.fee),
              transaction_count := snd.transaction_count + 1,
              last_activity := tx.timestamp }

/-- `Blockchain._process_transaction`: debit the sender (see
`debitSender`), then credit the recipient.  The source also sets the
processed `Transaction` object's status to Confirmed and its
block_number to the new block's index, but those objects are dropped
when the pool is cleared, so the mutation is unobservable and not
modelled.  The recipient-missing branch calls
`Account(..., last_activity=...)`, a keyword `Account.__init__` does
not accept, so it raises `TypeError`; that is the `Except.error`
exit. -/
def process_transaction (accounts : List (String × Account))
    (tx : Transaction) : Except Unit (List (String × Account)) :=
  let accounts1 := debitSender accounts tx
  match aget accounts1 tx.recipient with
  | some rcp =>
      Except.ok (aset accounts1 tx.recipient
        { rcp with
            balance := qAdd rcp.balance tx.amount,
            last_activity := tx.timestamp })
  | none => Except.error ()

/-- The `for tx in self.pending_transactions: self._process_transaction(...)`
loop of `mine_pending_transactions`. -/
def processAll (accounts : List (String × Account)) :
    List Transaction → Except Unit (List (String × Account))
  | [] => Except.ok accounts
  | t :: r =>
    match process_transaction accounts t with
    | Except.error e => Except.error e
    | Except.ok accounts1 => processAll accounts1 r

/-- Result of `mine_pending_transactions`.  `nothingMined` is the
`return None` on an empty pool (state unchanged); `failed` covers the
runs the Python function never completes normally: proof-of-work fuel
exhaustion, the empty-chain `IndexError` of `chain[-1]`, and the
`TypeError` raised by `_process_transaction` on a missing recipient
(all of which leave no well-defined returned state to observe). -/
inductive MineResult where
  | mined (b : Block) (s : Blockchain)
  | nothingMined (s : Blockchain)
  | failed
deriving DecidableEq

/-- `Blockchain.mine_pending_transactions`: append the reward
transaction to the pool, snapshot the pool by value into a new block
(`previous_hash` = current head's hash, index = chain length), mine
it, append it to the chain, apply ledger effects for every pooled
transaction, then clear the pool. -/
def Blockchain.mine_pending (H : HashInput → String) (miner : String)
    (now : ℚ) (fuel : Nat) (s : Blockchain) : MineResult :=
  match s.pending_transactions with
  | [] => MineResult.nothingMined s
  | _ :: _ =>
    let reward := rewardTransaction miner s.nextId now
    let pool := s.pending_transactions ++ [reward]
    match s.chain.getLast? with
    | none => MineResult.failed
    | some latest =>
      let newBlock := Block.create H s.chain.length
        (pool.map Transaction.to_dict) now latest.hash miner 4
      match Block.mine_block H none fuel newBlock with
      | none => MineResult.failed
      | some mined =>
        let s1 := { s with
          chain := s.chain ++ [mined],
          nextId := s.nextId + 1 }
        match processAll s1.accounts pool with
        | Except.error _ => MineResult.failed
        | Except.ok accounts1 =>
          MineResult.mined mined
            { s1 with accounts := accounts1, pending_transactions := [] }

/-- One adjacent-pair check of `is_chain_valid`: the stored hash must
recompute and the back link must match. -/
def pairCheck (H : HashInput → String) (prev cur : Block) : Bool :=
  decide (cur.hash = Block.calculate_hash H cur) &&
    decide (cur.previous_hash = prev.hash)

/-- The scan of `is_chain_valid` from block 1 upward. -/
def chainCheck (H : HashInput → String) : List Block → Bool
  | [] => true
  | [_] => true
  | a :: b :: rest => pairCheck H a b && chainCheck H (b :: rest)

/-- `Blockchain.is_chain_valid`. -/
def Blockchain.is_chain_valid (H : HashInput → String) (s : Blockchain) : Bool :=
  chainCheck H s.chain

/-- `Blockchain.get_latest_block` (`chain[-1]`). -/
def Blockchain.get_latest_block (s : Blockchain) : Option Block :=
  s.chain.getLast?

/-- `Blockchain.get_block_by_number`: direct index access, `None` when
out of range. -/
def Blockchain.get_block_by_number (n : Nat) (s : Blockchain) : Option Block :=
  s.chain.get? n

/-- `Blockchain.get_block_by_hash`: linear scan. -/
def Blockchain.get_block_by_hash (h : String) (s : Blockchain) : Option Block :=
  s.chain.find? (fun b => decide (b.hash = h))

/-- Chain scan of `get_transaction`: find the first stored record with
the given id, set its `block_number` to the containing block's index
*in the stored record itself* (the Python code assigns into the dict
that lives inside the block), and return that record. -/
def updateBlockTx (txId : Nat) (idx : Nat) :
    List Transaction → Option Transaction × List Transaction
  | [] => (none, [])
  | t :: r =>
    if t.id = txId then
      let t1 := { t with block_number := some idx }
      (some t1, t1 :: r)
    else
      let p := updateBlockTx txId idx r
      (p.1, t :: p.2)

/-- The outer block loop of `get_transaction`'s chain scan. -/
def getTxChain (txId : Nat) : List Block → Option Transaction × List Block
  | [] => (none, [])
  | b :: rest =>
    match updateBlockTx txId b.index b.transactions with
    | (some rec0, txs1) => (some rec0, { b with transactions := txs1 } :: rest)
    | (none, _) =>
      let p := getTxChain txId rest
      (p.1, b :: p.2)

/-- `Blockchain.get_transaction`: pending pool first (returning a
fresh `to_dict` copy, no mutation), then the chain scan, which writes
`block_number` into the matching stored record. -/
def Blockchain.get_transaction (txId : Nat) (s : Blockchain) :
    Option Transaction × Blockchain :=
  match s.pending_transactions.find? (fun t => decide (t.id = txId)) with
  | some t => (some t.to_dict, s)
  | none =>
    let p := getTxChain txId s.chain
    (p.1, { s with chain := p.2 })

/-- Inner record loop of `get_account_transactions` over one block:
every matching stored record gets `block_number` assigned in place and
is collected (the collected entry aliases the stored one, so both
carry the update). -/
def collectBlockTxs (addr : String) (idx : Nat) :
    List Transaction → List Transaction × List Transaction
  | [] => ([], [])
  | t :: r =>
    let p := collectBlockTxs addr idx r
    if t.sender = addr ∨ t.recipient = addr then
      let t1 := { t with block_number := some idx }
      (t1 :: p.1, t1 :: p.2)
    else
      (p.1, t :: p.2)

/-- Outer block loop of `get_account_transactions`. -/
def collectChain (addr : String) : List Block → List Transaction × List Block
  | [] => ([], [])
  | b :: rest =>
    let pb := collectBlockTxs addr b.index b.transactions
    let pr := collectChain addr rest
    (pb.1 ++ pr.1, { b with transactions := pb.2 } :: pr.2)

/-- Stable insertion into a timestamp-descending list: the new element
goes after all existing elements with an equal or larger timestamp,
matching Python's stable `sort(key=timestamp, reverse=True)`. -/
def insertDesc (t : Transaction) : List Transaction → List Transaction
  | [] => [t]
  | x :: r =>
    if x.timestamp < t.timestamp then t :: x :: r else x :: insertDesc t r

/-- Stable sort by timestamp, descending. -/
def sortDescByTimestamp (l : List Transaction) : List Transaction :=
  l.foldl (fun acc t => insertDesc t acc) []

/-- `Blockchain.get_account_transactions`: confirmed records from every
block (mutated in place as collected), then matching pending
transactions as `to_dict` copies, sorted by timestamp descending. -/
def Blockchain.get_account_transactions (addr : String) (s : Blockchain) :
    List Transaction × Blockchain :=
  let pc := collectChain addr s.chain
  let pendingHits :=
    (s.pending_transactions.filter
      (fun t => decide (t.sender = addr) || decide (t.recipient = addr))).map
      Transaction.to_dict
  (sortDescByTimestamp (pc.1 ++ pendingHits), { s with chain := pc.2 })

/-- The dictionary returned by `get_network_stats` (the `latest_block`
entry, a `Block.to_dict` rendering of the head block, is omitted: it
is a plain projection no claim mentions). -/
structure NetworkStats where
  block_count : Nat
  pending_transactions : Nat
  average_block_time : ℚ
  tps : ℚ
  account_count : Nat
  difficulty : Nat
deriving DecidableEq

/-- `Blockchain.get_network_stats`.  `for i in range(1, min(11, len))`
collects the timestamp deltas between adjacent blocks among the FIRST
`min(11, len)` blocks of the chain, i.e. the oldest gaps. -/
def Blockchain.get_network_stats (s : Blockchain) : NetworkStats :=
  let front := s.chain.take 11
  let blockTimes := List.zipWith (fun a b => qSub b.timestamp a.timestamp) front front.tail
  let avg : ℚ := if blockTimes.isEmpty then 0 else qDiv (qSum blockTimes) (blockTimes.length : ℚ)
  let latestTxCount : Nat :=
    match s.chain.getLast? with
    | some b => b.transactions.length
    | none => 0
  let tps : ℚ := if 0 < avg then qDiv (latestTxCount : ℚ) avg else 0
  { block_count := s.chain.length
    pending_transactions := s.pending_transactions.length
    average_block_time := avg
    tps := tps
    account_count := s.accounts.length
    difficulty :=
      match s.chain.getLast? with
      | some b => b.difficulty
      | none => 0 }

/-- An operation of the public mutating interface, with its explicit
clock value (and proof-of-work fuel for mining). -/
inductive Op where
  | stage (sender recipient : String) (amount : ℚ) (data : String)
      (gas_price gas_limit : Nat) (now : ℚ)
  | mine (miner : String) (now : ℚ) (fuel : Nat)

/-- Run one operation, keeping only the successful outcomes (a staging
that returns an id; a mine that returns a block or the empty-pool
no-op). -/
def runOp (H : HashInput → String) (o : Op) (s : Blockchain) : Option Blockchain :=
  match o with
  | Op.stage sender recipient amount data gp gl now =>
    match Blockchain.add_transaction sender recipient amount data gp gl now s with
    | (Except.ok _, s1) => some s1
    | (Except.error _, _) => none
  | Op.mine miner now fuel =>
    match Blockchain.mine_pending H miner now fuel s with
    | MineResult.mined _ s1 => some s1
    | MineResult.nothingMined s1 => some s1
    | MineResult.failed => none

/-- Run a sequence of operations, all of which must succeed. -/
def runOps (H : HashInput → String) : List Op → Blockchain → Option Blockchain
  | [], s => some s
  | o :: r, s =>
    match runOp H o s with
    | none => none
    | some s1 => runOps H r s1

/-- A ledger produced solely by successful operations from a fresh
initialisation at time `t0`. -/
def buildFrom (H : HashInput → String) (t0 : ℚ) (ops : List Op) :
    Option Blockchain :=
  runOps H ops (Blockchain.init H t0)

/-- A post-hoc mutation of one of the stored block fields named by the
spec: index, timestamp, previous_hash, nonce, or one embedded
transaction record (replaced at a given position).  The stored `hash`
and the `difficulty` are deliberately not touchable: the claim is
about tampering with hashed content. -/
inductive FieldMutation where
  | setIndex (v : Nat)
  | setTimestamp (v : ℚ)
  | setPrevHash (v : String)
  | setNonce (v : Nat)
  | setTxRecord (j : Nat) (v : Transaction)

/-- Apply a field mutation to a block. -/
def applyMutation (m : FieldMutation) (b : Block) : Block :=
  match m with
  | FieldMutation.setIndex v => { b with index := v }
  | FieldMutation.setTimestamp v => { b with timestamp := v }
  | FieldMutation.setPrevHash v => { b with previous_hash := v }
  | FieldMutation.setNonce v => { b with nonce := v }
  | FieldMutation.setTxRecord j v => { b with transactions := b.transactions.set j v }

/-- Replace the block at position `i` of a chain by a mutated copy. -/
def setAt (i : Nat) (f : Block → Block) : List Block → List Block
  | [] => []
  | b :: r =>
    match i with
    | 0 => f b :: r
    | i' + 1 => b :: setAt i' f r

/-- Tamper with block `i` of a ledger's chain. -/
def tamper (m : FieldMutation) (i : Nat) (s : Blockchain) : Blockchain :=
  { s with chain := setAt i (applyMutation m) s.chain }

/-- Sum of all account balances: the ledger-wide quantity that value
conservation constrains. -/
def totalBalance (accounts : List (String × Account)) : ℚ :=
  qSum (accounts.map (fun p => p.2.balance))

/-- Total amount debited from sender accounts when the given
transactions are applied: every transaction whose sender is not the
system address debits `amount + fee`. -/
def sumDebits (l : List Transaction) : ℚ :=
  qSum ((l.filter (fun t => decide (t.sender ≠ systemAddress))).map
    (fun t => qAdd t.amount t.fee))

/-- Total amount credited to recipient accounts: every transaction
credits its amount. -/
def sumCredits (l : List Transaction) : ℚ :=
  qSum (l.map Transaction.amount)

/-- Total value minted: amounts of the transactions sent from the
reserved system address. -/
def sumMinted (l : List Transaction) : ℚ :=
  qSum ((l.filter (fun t => decide (t.sender = systemAddress))).map
    Transaction.amount)

/-- Total fees burned by ledger application: fees of the non-system
transactions are debited from senders but credited to no one. -/
def sumBurnedFees (l : List Transaction) : ℚ :=
  qSum ((l.filter (fun t => decide (t.sender ≠ systemAddress))).map
    Transaction.fee)

/-- The hash-chain well-formedness facts maintained by honest use of
the ledger: every stored hash recomputes from the block's own fields,
every non-genesis block meets its difficulty target, and every block's
back link matches its predecessor's stored hash. -/
def ChainInv (H : HashInput → String) (c : List Block) : Prop :=
  (∀ b ∈ c, b.hash = Block.calculate_hash H b) ∧
  (∀ b ∈ c.tail, b.hashMeetsDifficulty) ∧
  List.Chain' (fun a b => b.previous_hash = a.hash) c

/-- The global state invariant preserved by every successful
operation: the chain is nonempty and well formed, and every pooled
transaction is Pending, unassigned to a block, and has a sender with
an account record. -/
def LedgerInv (H : HashInput → String) (s : Blockchain) : Prop :=
  s.chain ≠ [] ∧ ChainInv H s.chain ∧
  ∀ t ∈ s.pending_transactions,
    t.status = TxStatus.Pending ∧ t.block_number = none ∧
      (aget s.accounts t.sender).isSome

/-- A hash model that meets every difficulty target immediately (so
proof-of-work succeeds at nonce 0) and is constant: used for witness
runs that do not need tamper detection. -/
def Hc : HashInput → String := fun _ => String.mk (List.replicate 64 '0')

/-- Hash model for the tamper witness: it separates the (tampered)
timestamp value 999 from everything an honest run at times 0..2
produces, while still meeting every difficulty target. -/
def Ht : HashInput → String := fun inp =>
  if inp.timestamp = 999 then String.mk ['1'] else String.mk (List.replicate 64 '0')

/-- A hash model under which no hash meets any positive difficulty
target; for exhibiting that nothing forces the genesis hash to carry
the zero prefix. -/
def H1111 : HashInput → String := fun _ => String.mk ['1', '1', '1', '1']

/-- First seeded development account (balance 1000000). -/
def devAddr1 : String := "0x1234567890abcdef1234567890abcdef12345678"

/-- Second seeded development account (balance 500000). -/
def devAddr2 : String := "0xabcdef1234567890abcdef1234567890abcdef12"

/-- Witness run: one successful staging from the first dev account,
then one successful mine with the second dev account as the miner. -/
def opsW : List Op :=
  [Op.stage devAddr1 "0xbb" 1 "" 5 21000 1, Op.mine devAddr2 2 1]

/-- The state reached by the witness run under `Ht`. -/
def sW : Blockchain := (buildFrom Ht 0 opsW).getD (Blockchain.init Ht 0)

/-- Result projection: the block of a successful mine. -/
def MineResult.minedBlock : MineResult → Option Block
  | MineResult.mined b _ => some b
  | _ => none

/-- Result projection: the post-state of a non-failed mine. -/
def MineResult.finalState : MineResult → Option Blockchain
  | MineResult.mined _ s => some s
  | MineResult.nothingMined s => some s
  | MineResult.failed => none

/-- State after staging one transfer from the first dev account under
the constant hash model. -/
def sPre : Blockchain :=
  (buildFrom Hc 0 [Op.stage devAddr1 "0xbb" 1 "" 5 21000 1]).getD (Blockchain.init Hc 0)

/-- The mine call of the concrete runs: miner is the second dev
account (which exists, so `_process_transaction` does not crash). -/
def mrW : MineResult := Blockchain.mine_pending Hc devAddr2 2 1 sPre

/-- An all-zero block used only as a `getD` default. -/
def blankBlock : Block :=
  { index := 0, transactions := [], timestamp := 0, previous_hash := "",
    validator := "", difficulty := 0, nonce := 0, hash := "",
    gas_used := 0, gas_limit := 0 }

/-- The block mined by `mrW`. -/
def bW : Block := (MineResult.minedBlock mrW).getD blankBlock

/-- The state after `mrW`. -/
def sPost : Blockchain := (MineResult.finalState mrW).getD (Blockchain.init Hc 0)

/-- The seeded record of the first dev account, extracted from the
fresh ledger. -/
def accW : Account :=
  (aget (Blockchain.init Hc 0).accounts devAddr1).getD (Account.new "" none 0 false 0 0)

/-- Staging an overdrawing transfer (amount 2000000 against balance
1000000) from the first dev account on a fresh ledger. -/
def stageIB : Except StageError Nat × Blockchain :=
  Blockchain.add_transaction devAddr1 "0xcc" 2000000 "" 5 21000 1 (Blockchain.init Hc 0)

/-- First witness staging for C6 (nonce 0 expected). -/
def stageN1 : Except StageError Nat × Blockchain :=
  Blockchain.add_transaction devAddr1 "0xdd" 1 "" 5 21000 1 (Blockchain.init Hc 0)

/-- Second witness staging for C6 from the same sender (nonce 1
expected). -/
def stageN2 : Except StageError Nat × Blockchain :=
  Blockchain.add_transaction devAddr1 "0xdd" 1 "" 5 21000 2 stageN1.2

/-- Staging used by the C10 witness: unknown recipient, overdrawing
amount. -/
def stageC10 : Except StageError Nat × Blockchain :=
  Blockchain.add_transaction devAddr1 "0xee" 2000000 "" 5 21000 3 (Blockchain.init Hc 0)

/-- Modelled from the spec: "average inter-block time over the most
recent ≤10 blocks (pairwise timestamp deltas, arithmetic mean; 0 if
fewer than 2 blocks exist)" — the pairwise deltas within the LAST ten
blocks of the chain, for comparison with the code, which iterates
over `range(1, min(11, len))`, i.e. the FIRST blocks. -/
def specAvgRecentBlocks (s : Blockchain) : ℚ :=
  let recent := s.chain.drop (s.chain.length - 10)
  let deltas := List.zipWith (fun a b => qSub b.timestamp a.timestamp) recent recent.tail
  if deltas.isEmpty then 0 else qDiv (qSum deltas) (deltas.length : ℚ)

/-- A minimal block carrying only the fields `get_network_stats`
reads; used to build the twelve-block statistics state. -/
def statBlock (i : Nat) (t : ℚ) : Block :=
  { index := i, transactions := [], timestamp := t, previous_hash := "",
    validator := "", difficulty := 4, nonce := 0, hash := "",
    gas_used := 0, gas_limit := 0 }

/-- A twelve-block ledger whose first eleven blocks are one time unit
apart and whose twelfth comes 990 units later — the shape a chain gets
after eleven mines, the last one much later than the others.  With
twelve blocks the code's "earliest gaps" average (1) and the spec's
"most recent blocks" average (998/9) finally differ. -/
def s12 : Blockchain :=
  { chain := [statBlock 0 0, statBlock 1 1, statBlock 2 2, statBlock 3 3,
      statBlock 4 4, statBlock 5 5, statBlock 6 6, statBlock 7 7,
      statBlock 8 8, statBlock 9 9, statBlock 10 10, statBlock 11 1000],
    pending_transactions := [], accounts := [], nextId := 0 }

/-- Hash model for the lookup-mutation exhibit: the hash of serialised
block content depends on whether any embedded record carries a block
number — the very field `get_transaction` writes into stored records —
while still meeting every difficulty target on honest content. -/
def Hd : HashInput → String := fun inp =>
  if inp.transactions.all (fun t => t.block_number.isNone) then
    String.mk (List.replicate 64 '0')
  else String.mk ['1']

/-- Stage-then-mine run under `Hd`; the staged transaction has id 0
and ends up embedded in block 1 with `block_number` null. -/
def s3 : Blockchain :=
  (buildFrom Hd 0 [Op.stage devAddr1 "0xbb" 1 "" 5 21000 1, Op.mine devAddr2 2 1]).getD
    (Blockchain.init Hd 0)

theorem qAdd_eq (a b : ℚ) : qAdd a b = a + b := by
  have ha : (a.den : ℚ) ≠ 0 := by exact_mod_cast a.den_nz
  have hb : (b.den : ℚ) ≠ 0 := by exact_mod_cast b.den_nz
  rw [qAdd, Rat.mkRat_eq_div]
  push_cast
  conv_rhs => rw [← Rat.num_div_den a, ← Rat.num_div_den b]
  rw [div_add_div _ _ ha hb]
  ring_nf

theorem qSub_eq (a b : ℚ) : qSub a b = a - b := by
  have ha : (a.den : ℚ) ≠ 0 := by exact_mod_cast a.den_nz
  have hb : (b.den : ℚ) ≠ 0 := by exact_mod_cast b.den_nz
  rw [qSub, Rat.mkRat_eq_div]
  push_cast
  conv_rhs => rw [← Rat.num_div_den a, ← Rat.num_div_den b]
  rw [div_sub_div _ _ ha hb]
  ring_nf

theorem qMul_eq (a b : ℚ) : qMul a b = a * b := by
  have ha : (a.den : ℚ) ≠ 0 := by exact_mod_cast a.den_nz
  have hb : (b.den : ℚ) ≠ 0 := by exact_mod_cast b.den_nz
  rw [qMul, Rat.mkRat_eq_div]
  push_cast
  conv_rhs => rw [← Rat.num_div_den a, ← Rat.num_div_den b]
  rw [div_mul_div_comm]

theorem qDiv_eq (a b : ℚ) : qDiv a b = a / b := by
  rw [qDiv, Rat.divInt_eq_div]
  rcases eq_or_ne b 0 with rfl | hb
  · norm_num
  · have ha : (a.den : ℚ) ≠ 0 := by exact_mod_cast a.den_nz
    have hbd : (b.den : ℚ) ≠ 0 := by exact_mod_cast b.den_nz
    have hbn : (b.num : ℚ) ≠ 0 := by exact_mod_cast Rat.num_ne_zero.mpr hb
    have h1 : (a.num : ℚ) = a * a.den := (div_eq_iff ha).mp (Rat.num_div_den a)
    have h2 : (b.num : ℚ) = b * b.den := (div_eq_iff hbd).mp (Rat.num_div_den b)
    push_cast
    rw [div_eq_div_iff (by exact mul_ne_zero ha hbn) hb, h1, h2]
    ring

theorem qSum_eq (l : List ℚ) : qSum l = l.sum := by
  induction l with
  | nil => rfl
  | cons a r ih => simp [qSum, List.foldr] at ih ⊢; rw [qAdd_eq, ih]

theorem aget_aset (l : List (String × Account)) (k k' : String) (v : Account) :
    aget (aset l k v) k' = if k' = k then some v else aget l k' := by
  induction l with
  | nil =>
    by_cases h : k' = k <;> simp [aset, aget, h]
  | cons p r ih =>
    obtain ⟨k1, v1⟩ := p
    by_cases h1 : k = k1
    · subst h1
      by_cases h2 : k' = k <;> simp [aset, aget, h2]
    · by_cases h2 : k' = k1
      · subst h2
        have hne : ¬ k' = k := fun h => h1 h.symm
        simp [aset, aget, h1, hne]
      · simp [aset, aget, h1, h2, ih]

theorem aget_isSome_aset (l : List (String × Account)) (k k' : String)
    (v : Account) (h : (aget l k').isSome) : (aget (aset l k v) k').isSome := by
  rw [aget_aset]
  by_cases hk : k' = k <;> simp [hk, h]

theorem totalBalance_nil : totalBalance [] = 0 := rfl

theorem totalBalance_cons (p : String × Account) (r : List (String × Account)) :
    totalBalance (p :: r) = p.2.balance + totalBalance r := by
  simp [totalBalance, qSum, qAdd_eq]

theorem totalBalance_aset_mem (l : List (String × Account)) (k : String)
    (v a : Account) (h : aget l k = some a) :
    totalBalance (aset l k v) = totalBalance l + v.balance - a.balance := by
  induction l with
  | nil => simp [aget] at h
  | cons p r ih =>
    obtain ⟨k1, v1⟩ := p
    by_cases h1 : k = k1
    · subst h1
      simp [aget] at h
      subst h
      simp [aset, totalBalance_cons]
      ring
    · have hne : ¬ k = k1 := h1
      have h' : aget r k = some a := by
        have : ¬ k = k1 := h1
        simpa [aget, this] using h
      simp [aset, hne, totalBalance_cons, ih h']
      ring

theorem totalBalance_aset_new (l : List (String × Account)) (k : String)
    (v : Account) (h : aget l k = none) :
    totalBalance (aset l k v) = totalBalance l + v.balance := by
  induction l with
  | nil => simp [aset, totalBalance_cons, totalBalance_nil]
  | cons p r ih =>
    obtain ⟨k1, v1⟩ := p
    by_cases h1 : k = k1
    · subst h1; simp [aget] at h
    · have h' : aget r k = none := by simpa [aget, h1] using h
      simp [aset, h1, totalBalance_cons, ih h']
      ring

theorem calculate_hash_hash_irrel (H : HashInput → String) (b : Block) (x : String) :
    Block.calculate_hash H { b with hash := x } = Block.calculate_hash H b := rfl

theorem Block.create_hash (H : HashInput → String) (index : Nat)
    (transactions : List Transaction) (timestamp : ℚ) (previous_hash : String)
    (validator : String) (difficulty : Nat) :
    (Block.create H index transactions timestamp previous_hash validator difficulty).hash =
      Block.calculate_hash H
        (Block.create H index transactions timestamp previous_hash validator difficulty) := rfl

theorem Block.withNonce_hash (H : HashInput → String) (b : Block) (n : Nat) :
    (Block.withNonce H b n).hash = Block.calculate_hash H (Block.withNonce H b n) := rfl

theorem mineAux_spec (H : HashInput → String) (fuel : Nat) :
    ∀ (b b' : Block), Block.mineAux H fuel b = some b' →
      b.hash = Block.calculate_hash H b →
      (b'.hash = Block.calculate_hash H b' ∧ b'.hashMeetsDifficulty ∧
        b'.index = b.index ∧ b'.transactions = b.transactions ∧
        b'.timestamp = b.timestamp ∧ b'.previous_hash = b.previous_hash ∧
        b'.validator = b.validator ∧ b'.difficulty = b.difficulty) := by
  induction fuel with
  | zero =>
    intro b b' h hh
    rw [Block.mineAux] at h
    split at h
    · cases h
      exact ⟨hh, by assumption, rfl, rfl, rfl, rfl, rfl, rfl⟩
    · cases h
  | succ f ih =>
    intro b b' h hh
    rw [Block.mineAux] at h
    split at h
    · cases h
      exact ⟨hh, by assumption, rfl, rfl, rfl, rfl, rfl, rfl⟩
    · have := ih (Block.withNonce H b (b.nonce + 1)) b' h (Block.withNonce_hash H b _)
      simpa [Block.withNonce] using this

theorem mine_block_spec (H : HashInput → String) (fuel : Nat) (b b' : Block)
    (h : Block.mine_block H none fuel b = some b')
    (hh : b.hash = Block.calculate_hash H b) :
    b'.hash = Block.calculate_hash H b' ∧ b'.hashMeetsDifficulty ∧
      b'.index = b.index ∧ b'.transactions = b.transactions ∧
      b'.timestamp = b.timestamp ∧ b'.previous_hash = b.previous_hash ∧
      b'.validator = b.validator ∧ b'.difficulty = b.difficulty :=
  mineAux_spec H fuel b b' h hh

theorem debitSender_facts (accounts : List (String × Account))
    (tx : Transaction) (hs : tx.sender = systemAddress ∨ (aget accounts tx.sender).isSome) :
    totalBalance (debitSender accounts tx) =
      totalBalance accounts -
        (if tx.sender = systemAddress then 0 else tx.amount + tx.fee) ∧
    (∀ k, (aget accounts k).isSome → (aget (debitSender accounts tx) k).isSome) := by
  by_cases hsys : tx.sender = systemAddress
  · simp [debitSender, hsys]
  · rcases hs with hs | hs
    · exact absurd hs hsys
    cases hsnd : aget accounts tx.sender with
    | none => rw [hsnd] at hs; cases hs
    | some snd =>
      constructor
      · rw [debitSender, if_neg hsys, hsnd,
          totalBalance_aset_mem _ _ _ _ hsnd]
        simp [hsys, qAdd_eq, qSub_eq]
        ring
      · intro k hk
        rw [debitSender, if_neg hsys, hsnd]
        exact aget_isSome_aset _ _ _ _ hk

theorem process_transaction_ok_facts (accounts accounts1 : List (String × Account))
    (tx : Transaction) (h : process_transaction accounts tx = Except.ok accounts1)
    (hs : tx.sender = systemAddress ∨ (aget accounts tx.sender).isSome) :
    totalBalance accounts1 =
      totalBalance accounts +
        (if tx.sender = systemAddress then tx.amount else -tx.fee) ∧
    (∀ k, (aget accounts k).isSome → (aget accounts1 k).isSome) := by
  have hd := debitSender_facts accounts tx hs
  rw [process_transaction] at h
  cases hr : aget (debitSender accounts tx) tx.recipient with
  | none => rw [hr] at h; cases h
  | some rcp =>
    rw [hr] at h
    cases h
    constructor
    · rw [totalBalance_aset_mem _ _ _ _ hr, hd.1]
      by_cases hsys : tx.sender = systemAddress <;> simp [hsys, qAdd_eq] <;> ring
    · intro k hk
      exact aget_isSome_aset _ _ _ _ (hd.2 k hk)

theorem processAll_facts (txs : List Transaction) :
    ∀ (accounts accounts1 : List (String × Account)),
      processAll accounts txs = Except.ok accounts1 →
      (∀ t ∈ txs, t.sender = systemAddress ∨ (aget accounts t.sender).isSome) →
      totalBalance accounts1 =
        totalBalance accounts +
          (txs.map (fun t =>
            if t.sender = systemAddress then t.amount else -t.fee)).sum := by
  induction txs with
  | nil =>
    intro accounts accounts1 h _
    rw [processAll] at h
    cases h
    simp
  | cons t r ih =>
    intro accounts accounts1 h hall
    rw [processAll] at h
    cases hp : process_transaction accounts t with
    | error e => rw [hp] at h; cases h
    | ok acc1 =>
      rw [hp] at h
      have hfacts := process_transaction_ok_facts accounts acc1 t hp
        (hall t (List.mem_cons_self t r))
      have hrest : ∀ u ∈ r, u.sender = systemAddress ∨ (aget acc1 u.sender).isSome := by
        intro u hu
        rcases hall u (List.mem_cons_of_mem t hu) with hu1 | hu1
        · exact Or.inl hu1
        · exact Or.inr (hfacts.2 u.sender hu1)
      have := ih acc1 accounts1 h hrest
      rw [this, hfacts.1]
      simp [List.map_cons, List.sum_cons]
      ring

theorem Transaction.create_id (sender recipient : String) (amount fee : ℚ)
    (data : String) (nonce : Nat) (gp gl id : Nat) (now : ℚ) :
    (Transaction.create sender recipient amount fee data nonce gp gl id now).id = id := rfl

theorem Transaction.create_amount (sender recipient : String) (amount fee : ℚ)
    (data : String) (nonce : Nat) (gp gl id : Nat) (now : ℚ) :
    (Transaction.create sender recipient amount fee data nonce gp gl id now).amount = amount := rfl

theorem Transaction.create_sender (sender recipient : String) (amount fee : ℚ)
    (data : String) (nonce : Nat) (gp gl id : Nat) (now : ℚ) :
    (Transaction.create sender recipient amount fee data nonce gp gl id now).sender = sender := rfl

theorem Transaction.create_recipient (sender recipient : String) (amount fee : ℚ)
    (data : String) (nonce : Nat) (gp gl id : Nat) (now : ℚ) :
    (Transaction.create sender recipient amount fee data nonce gp gl id now).recipient = recipient := rfl

theorem Transaction.create_status (sender recipient : String) (amount fee : ℚ)
    (data : String) (nonce : Nat) (gp gl id : Nat) (now : ℚ) :
    (Transaction.create sender recipient amount fee data nonce gp gl id now).status =
      TxStatus.Pending := rfl

theorem Transaction.create_block_number (sender recipient : String) (amount fee : ℚ)
    (data : String) (nonce : Nat) (gp gl id : Nat) (now : ℚ) :
    (Transaction.create sender recipient amount fee data nonce gp gl id now).block_number =
      none := rfl

theorem Transaction.create_timestamp (sender recipient : String) (amount fee : ℚ)
    (data : String) (nonce : Nat) (gp gl id : Nat) (now : ℚ) :
    (Transaction.create sender recipient amount fee data nonce gp gl id now).timestamp = now := rfl

theorem Transaction.create_gas_used (sender recipient : String) (amount fee : ℚ)
    (data : String) (nonce : Nat) (gp gl id : Nat) (now : ℚ) :
    (Transaction.create sender recipient amount fee data nonce gp gl id now).gas_used =
      min (if data = "" then 21000 else 21000 + data.length * 68) gl := rfl

theorem Transaction.create_fee (sender recipient : String) (amount fee : ℚ)
    (data : String) (nonce : Nat) (gp gl id : Nat) (now : ℚ) :
    (Transaction.create sender recipient amount fee data nonce gp gl id now).fee =
      qDiv (qMul ((min (if data = "" then 21000 else 21000 + data.length * 68) gl : Nat) : ℚ)
        (gp : ℚ)) 1000000000 := rfl

theorem add_transaction_unknown (sender recipient : String) (amount : ℚ)
    (data : String) (gp gl : Nat) (now : ℚ) (s : Blockchain)
    (h : aget s.accounts sender = none) :
    Blockchain.add_transaction sender recipient amount data gp gl now s =
      (Except.error StageError.UnknownSender, { s with nextId := s.nextId + 1 }) := by
  rw [Blockchain.add_transaction]
  simp only [h]

theorem add_transaction_insufficient (sender recipient : String) (amount : ℚ)
    (data : String) (gp gl : Nat) (now : ℚ) (s : Blockchain) (a : Account)
    (ha : aget s.accounts sender = some a)
    (hlt : a.balance < qAdd amount
      (Transaction.create sender recipient amount 0 data 0 gp gl s.nextId now).fee) :
    Blockchain.add_transaction sender recipient amount data gp gl now s =
      (Except.error StageError.InsufficientBalance,
        match aget s.accounts recipient with
        | none =>
            { s with
                nextId := s.nextId + 1,
                accounts := aset s.accounts recipient
                  (Account.new recipient none 0 false 0 now) }
        | some _ => { s with nextId := s.nextId + 1 }) := by
  rw [Blockchain.add_transaction]
  simp only [ha, Transaction.create_amount]
  cases hr : aget s.accounts recipient with
  | none => simp only [hr, if_pos hlt]
  | some rcp => simp only [hr, if_pos hlt]

theorem add_transaction_ok_facts (sender recipient : String) (amount : ℚ)
    (data : String) (gp gl : Nat) (now : ℚ) (s : Blockchain) (res : Nat)
    (s' : Blockchain)
    (h : Blockchain.add_transaction sender recipient amount data gp gl now s =
      (Except.ok res, s')) :
    ∃ a, aget s.accounts sender = some a ∧
      ¬ a.balance < qAdd amount
        (Transaction.create sender recipient amount 0 data 0 gp gl s.nextId now).fee ∧
      res = s.nextId ∧
      s'.chain = s.chain ∧
      s'.nextId = s.nextId + 1 ∧
      s'.pending_transactions = s.pending_transactions ++
        [{ Transaction.create sender recipient amount 0 data 0 gp gl s.nextId now with
            nonce := a.nonce }] ∧
      aget s'.accounts sender = some { a with nonce := a.nonce + 1 } ∧
      (∀ k, (aget s.accounts k).isSome → (aget s'.accounts k).isSome) := by
  rw [Blockchain.add_transaction] at h
  simp only [Transaction.create_amount] at h
  cases hsnd : aget s.accounts sender with
  | none => simp only [hsnd] at h; cases h
  | some a =>
    simp only [hsnd] at h
    by_cases hlt : a.balance < qAdd amount
      (Transaction.create sender recipient amount 0 data 0 gp gl s.nextId now).fee
    · cases hr : aget s.accounts recipient with
      | none => simp only [hr, if_pos hlt] at h; cases h
      | some rcp => simp only [hr, if_pos hlt] at h; cases h
    · refine ⟨a, rfl, hlt, ?_⟩
      cases hr : aget s.accounts recipient with
      | none =>
        simp only [hr, if_neg hlt] at h
        injection h with h1 h2
        injection h1 with h1
        subst h2
        refine ⟨h1.symm, rfl, rfl, rfl, ?_, ?_⟩
        · rw [aget_aset, if_pos rfl]
        · intro k hk
          exact aget_isSome_aset _ _ _ _ (aget_isSome_aset _ _ _ _ hk)
      | some rcp =>
        simp only [hr, if_neg hlt] at h
        injection h with h1 h2
        injection h1 with h1
        subst h2
        refine ⟨h1.symm, rfl, rfl, rfl, ?_, ?_⟩
        · rw [aget_aset, if_pos rfl]
        · intro k hk
          exact aget_isSome_aset _ _ _ _ hk

theorem mine_pending_mined_facts (H : HashInput → String) (miner : String)
    (now : ℚ) (fuel : Nat) (s : Blockchain) (b : Block) (s2 : Blockchain)
    (h : Blockchain.mine_pending H miner now fuel s = MineResult.mined b s2) :
    ∃ latest, s.pending_transactions ≠ [] ∧ s.chain.getLast? = some latest ∧
      Block.mine_block H none fuel
        (Block.create H s.chain.length
          ((s.pending_transactions ++ [rewardTransaction miner s.nextId now]).map
            Transaction.to_dict)
          now latest.hash miner 4) = some b ∧
      processAll s.accounts
          (s.pending_transactions ++ [rewardTransaction miner s.nextId now]) =
        Except.ok s2.accounts ∧
      s2.chain = s.chain ++ [b] ∧
      s2.pending_transactions = [] ∧
      s2.nextId = s.nextId + 1 := by
  cases hp : s.pending_transactions with
  | nil => rw [Blockchain.mine_pending, hp] at h; cases h
  | cons t r =>
    rw [Blockchain.mine_pending] at h
    simp only [hp] at h
    cases hl : s.chain.getLast? with
    | none => simp only [hl] at h; cases h
    | some latest =>
      simp only [hl] at h
      cases hm : Block.mine_block H none fuel
          (Block.create H s.chain.length
            (((t :: r) ++ [rewardTransaction miner s.nextId now]).map
              Transaction.to_dict)
            now latest.hash miner 4) with
      | none => simp only [hm] at h; cases h
      | some mined0 =>
        simp only [hm] at h
        cases hpa : processAll s.accounts
            ((t :: r) ++ [rewardTransaction miner s.nextId now]) with
        | error e => simp only [hpa] at h; cases h
        | ok acc =>
          simp only [hpa] at h
          injection h with h1 h2
          subst h1
          subst h2
          exact ⟨latest, by simp, rfl, hm, rfl, rfl, rfl, rfl⟩

theorem Block.create_index (H : HashInput → String) (i : Nat)
    (txs : List Transaction) (t : ℚ) (ph v : String) (d : Nat) :
    (Block.create H i txs t ph v d).index = i := rfl

theorem Block.create_transactions (H : HashInput → String) (i : Nat)
    (txs : List Transaction) (t : ℚ) (ph v : String) (d : Nat) :
    (Block.create H i txs t ph v d).transactions = txs := rfl

theorem Block.create_time (H : HashInput → String) (i : Nat)
    (txs : List Transaction) (t : ℚ) (ph v : String) (d : Nat) :
    (Block.create H i txs t ph v d).timestamp = t := rfl

theorem Block.create_previous_hash (H : HashInput → String) (i : Nat)
    (txs : List Transaction) (t : ℚ) (ph v : String) (d : Nat) :
    (Block.create H i txs t ph v d).previous_hash = ph := rfl

theorem Block.create_validator (H : HashInput → String) (i : Nat)
    (txs : List Transaction) (t : ℚ) (ph v : String) (d : Nat) :
    (Block.create H i txs t ph v d).validator = v := rfl

theorem Block.create_difficulty (H : HashInput → String) (i : Nat)
    (txs : List Transaction) (t : ℚ) (ph v : String) (d : Nat) :
    (Block.create H i txs t ph v d).difficulty = d := rfl

theorem init_LedgerInv (H : HashInput → String) (t0 : ℚ) :
    LedgerInv H (Blockchain.init H t0) := by
  refine ⟨by simp [Blockchain.init], ⟨?_, ?_, ?_⟩, ?_⟩
  · intro b hb
    simp [Blockchain.init] at hb
    subst hb
    rfl
  · intro b hb
    simp [Blockchain.init] at hb
  · simp [Blockchain.init]
  · intro t ht
    simp [Blockchain.init] at ht

theorem mine_pending_nothing_facts (H : HashInput → String) (miner : String)
    (now : ℚ) (fuel : Nat) (s s1 : Blockchain)
    (h : Blockchain.mine_pending H miner now fuel s = MineResult.nothingMined s1) :
    s1 = s := by
  cases hp : s.pending_transactions with
  | nil => rw [Blockchain.mine_pending, hp] at h; cases h; rfl
  | cons t r =>
    rw [Blockchain.mine_pending] at h
    simp only [hp] at h
    cases hl : s.chain.getLast? with
    | none => simp only [hl] at h; cases h
    | some latest =>
      simp only [hl] at h
      cases hm : Block.mine_block H none fuel
          (Block.create H s.chain.length
            (((t :: r) ++ [rewardTransaction miner s.nextId now]).map
              Transaction.to_dict)
            now latest.hash miner 4) with
      | none => simp only [hm] at h; cases h
      | some mined0 =>
        simp only [hm] at h
        cases hpa : processAll s.accounts
            ((t :: r) ++ [rewardTransaction miner s.nextId now]) with
        | error e => simp only [hpa] at h; cases h
        | ok acc => simp only [hpa] at h; cases h

theorem tail_append_single (c : List Block) (b : Block) (h : c ≠ []) :
    (c ++ [b]).tail = c.tail ++ [b] := by
  cases c with
  | nil => exact absurd rfl h
  | cons x r => rfl

theorem runOp_preserves_Inv (H : HashInput → String) (o : Op) (s s' : Blockchain)
    (h : runOp H o s = some s') (hInv : LedgerInv H s) : LedgerInv H s' := by
  obtain ⟨hne, ⟨hHash, hDiff, hLink⟩, hPool⟩ := hInv
  cases o with
  | stage sender recipient amount data gp gl now =>
    rw [runOp] at h
    cases hadd : Blockchain.add_transaction sender recipient amount data gp gl now s with
    | mk res st =>
      rw [hadd] at h
      cases res with
      | error e => cases h
      | ok id1 =>
        simp only [] at h
        injection h with h
        subst h
        obtain ⟨a, ha, hge, hres, hchain, hnext, hpend, hsender, hkeys⟩ :=
          add_transaction_ok_facts sender recipient amount data gp gl now s id1 st hadd
        refine ⟨by rw [hchain]; exact hne, ⟨?_, ?_, ?_⟩, ?_⟩
        · rw [hchain]; exact hHash
        · rw [hchain]; exact hDiff
        · rw [hchain]; exact hLink
        · intro t ht
          rw [hpend] at ht
          rcases List.mem_append.mp ht with ht | ht
          · obtain ⟨h1, h2, h3⟩ := hPool t ht
            exact ⟨h1, h2, hkeys t.sender h3⟩
          · simp at ht
            subst ht
            refine ⟨rfl, rfl, ?_⟩
            have hs2 : (aget st.accounts sender).isSome := by rw [hsender]; rfl
            exact hs2
  | mine miner now fuel =>
    rw [runOp] at h
    cases hm : Blockchain.mine_pending H miner now fuel s with
    | failed => rw [hm] at h; cases h
    | nothingMined s1 =>
      rw [hm] at h
      simp only [] at h
      injection h with h
      subst h
      have := mine_pending_nothing_facts H miner now fuel s s1 hm
      subst this
      exact ⟨hne, ⟨hHash, hDiff, hLink⟩, hPool⟩
    | mined b s1 =>
      rw [hm] at h
      simp only [] at h
      injection h with h
      subst h
      obtain ⟨latest, hpne, hlatest, hmine, hproc, hchain, hpend, hnext⟩ :=
        mine_pending_mined_facts H miner now fuel s b s1 hm
      have hspec := mine_block_spec H fuel _ b hmine (Block.create_hash H _ _ _ _ _ _)
      obtain ⟨bhash, bdiff, hbi, hbt, hbts, hbph, hbv, hbd⟩ := hspec
      refine ⟨by rw [hchain]; simp, ⟨?_, ?_, ?_⟩, ?_⟩
      · rw [hchain]
        intro b' hb'
        rcases List.mem_append.mp hb' with hb' | hb'
        · exact hHash b' hb'
        · simp at hb'
          subst hb'
          exact bhash
      · rw [hchain, tail_append_single _ _ hne]
        intro b' hb'
        rcases List.mem_append.mp hb' with hb' | hb'
        · exact hDiff b' hb'
        · simp at hb'
          subst hb'
          exact bdiff
      · rw [hchain]
        rw [List.chain'_append]
        refine ⟨hLink, List.chain'_singleton b, ?_⟩
        intro x hx y hy
        simp at hy
        subst hy
        rw [hlatest] at hx
        simp at hx
        subst hx
        rw [hbph, Block.create_previous_hash]
      · intro t ht
        rw [hpend] at ht
        simp at ht

theorem runOps_preserves_Inv (H : HashInput → String) (ops : List Op) :
    ∀ s s', runOps H ops s = some s' → LedgerInv H s → LedgerInv H s' := by
  induction ops with
  | nil =>
    intro s s' h hI
    rw [runOps] at h
    injection h with h
    subst h
    exact hI
  | cons o r ih =>
    intro s s' h hI
    rw [runOps] at h
    cases ho : runOp H o s with
    | none => rw [ho] at h; cases h
    | some s1 =>
      rw [ho] at h
      exact ih s1 s' h (runOp_preserves_Inv H o s s1 ho hI)

theorem buildFrom_Inv (H : HashInput → String) (t0 : ℚ) (ops : List Op)
    (s : Blockchain) (h : buildFrom H t0 ops = some s) : LedgerInv H s :=
  runOps_preserves_Inv H ops (Blockchain.init H t0) s h (init_LedgerInv H t0)

theorem chainCheck_true_of (H : HashInput → String) :
    ∀ c : List Block,
      (∀ b ∈ c, b.hash = Block.calculate_hash H b) →
      List.Chain' (fun a b => b.previous_hash = a.hash) c →
      chainCheck H c = true := by
  intro c
  induction c with
  | nil => intro _ _; rfl
  | cons a r ih =>
    intro hHash hLink
    cases r with
    | nil => rfl
    | cons b rest =>
      rw [chainCheck, pairCheck]
      have h1 : b.hash = Block.calculate_hash H b :=
        hHash b (by simp)
      have h2 : b.previous_hash = a.hash := (List.chain'_cons.mp hLink).1
      have h3 := ih (fun x hx => hHash x (List.mem_cons_of_mem a hx))
        (List.chain'_cons.mp hLink).2
      rw [h3]
      simp [h1, h2]

theorem chainCheck_false_at (H : HashInput → String) :
    ∀ (c : List Block) (i : Nat) (hi : i + 1 < c.length),
      pairCheck H (c.get ⟨i, Nat.lt_of_succ_lt hi⟩) (c.get ⟨i + 1, hi⟩) = false →
      chainCheck H c = false := by
  intro c
  induction c with
  | nil => intro i hi; simp at hi
  | cons a r ih =>
    intro i hi hbad
    cases r with
    | nil => simp at hi
    | cons b rest =>
      cases i with
      | zero =>
        simp only [List.get] at hbad
        rw [chainCheck, hbad]
        simp
      | succ j =>
        have hj : j + 1 < (b :: rest).length := by
          simpa [List.length_cons, Nat.succ_lt_succ_iff] using hi
        have hbad' : pairCheck H ((b :: rest).get ⟨j, Nat.lt_of_succ_lt hj⟩)
            ((b :: rest).get ⟨j + 1, hj⟩) = false := by
          simpa using hbad
        rw [chainCheck, ih j hj hbad']
        simp

theorem setAt_length (i : Nat) (f : Block → Block) :
    ∀ c : List Block, (setAt i f c).length = c.length := by
  induction i with
  | zero =>
    intro c
    cases c <;> rfl
  | succ j ih =>
    intro c
    cases c with
    | nil => rfl
    | cons x r => simp [setAt, ih]

theorem setAt_get_self (f : Block → Block) :
    ∀ (c : List Block) (i : Nat) (hi : i < c.length),
      (setAt i f c).get ⟨i, by rw [setAt_length]; exact hi⟩ = f (c.get ⟨i, hi⟩) := by
  intro c
  induction c with
  | nil => intro i hi; simp at hi
  | cons x r ih =>
    intro i hi
    cases i with
    | zero => rfl
    | succ j => exact ih j (by simpa [Nat.succ_lt_succ_iff] using hi)

theorem setAt_get_other (f : Block → Block) :
    ∀ (c : List Block) (i j : Nat) (hj : j < c.length), j ≠ i →
      (setAt i f c).get ⟨j, by rw [setAt_length]; exact hj⟩ = c.get ⟨j, hj⟩ := by
  intro c
  induction c with
  | nil => intro i j hj; simp at hj
  | cons x r ih =>
    intro i j hj hne
    cases i with
    | zero =>
      cases j with
      | zero => exact absurd rfl hne
      | succ k => rfl
    | succ i' =>
      cases j with
      | zero => rfl
      | succ k =>
        have := ih i' k (by simpa [Nat.succ_lt_succ_iff] using hj)
          (fun hk => hne (by rw [hk]))
        simpa using this

theorem applyMutation_hash (m : FieldMutation) (b : Block) :
    (applyMutation m b).hash = b.hash := by
  cases m <;> rfl

/-- C1: a chain produced solely by successful `stage_transaction` and
`mine_pending` operations from the freshly initialised ledger passes
`is_chain_valid`; and after mutating any stored hashed field of a
non-genesis block (index, timestamp, previous_hash, nonce, or an
embedded transaction record), `is_chain_valid` returns false, given
that the hash function distinguishes the mutated serialised content
from the original (for the concrete SHA-256 this is exactly
collision-freeness at that pair, which the claim tacitly assumes). -/
theorem chain_validity_and_tamper_detection (H : HashInput → String) (t0 : ℚ)
    (ops : List Op) (s : Blockchain) (h : buildFrom H t0 ops = some s) :
    Blockchain.is_chain_valid H s = true ∧
    ∀ (i : Nat) (hi : i + 1 < s.chain.length) (m : FieldMutation),
      H (applyMutation m (s.chain.get ⟨i + 1, hi⟩)).hashInput ≠
        H (s.chain.get ⟨i + 1, hi⟩).hashInput →
      Blockchain.is_chain_valid H (tamper m (i + 1) s) = false := by
  obtain ⟨hne, ⟨hHash, hDiff, hLink⟩, hPool⟩ := buildFrom_Inv H t0 ops s h
  constructor
  · exact chainCheck_true_of H s.chain hHash hLink
  · intro i hi m hdist
    have hlen : i + 1 < (setAt (i + 1) (applyMutation m) s.chain).length := by
      rw [setAt_length]; exact hi
    have hget1 : (setAt (i + 1) (applyMutation m) s.chain).get
        ⟨i + 1, hlen⟩ = applyMutation m (s.chain.get ⟨i + 1, hi⟩) :=
      setAt_get_self (applyMutation m) s.chain (i + 1) hi
    have hget0 : (setAt (i + 1) (applyMutation m) s.chain).get
        ⟨i, Nat.lt_of_succ_lt hlen⟩ = s.chain.get ⟨i, Nat.lt_of_succ_lt hi⟩ :=
      setAt_get_other (applyMutation m) s.chain (i + 1) i
        (Nat.lt_of_succ_lt hi) (Nat.ne_of_lt (Nat.lt_succ_self i))
    have hmem : s.chain.get ⟨i + 1, hi⟩ ∈ s.chain := List.get_mem s.chain (i + 1) hi
    have hstored : (s.chain.get ⟨i + 1, hi⟩).hash =
        H (s.chain.get ⟨i + 1, hi⟩).hashInput := hHash _ hmem
    have hfail : pairCheck H
        ((setAt (i + 1) (applyMutation m) s.chain).get ⟨i, Nat.lt_of_succ_lt hlen⟩)
        ((setAt (i + 1) (applyMutation m) s.chain).get ⟨i + 1, hlen⟩) = false := by
      rw [hget1, pairCheck]
      have hne1 : (applyMutation m (s.chain.get ⟨i + 1, hi⟩)).hash ≠
          Block.calculate_hash H (applyMutation m (s.chain.get ⟨i + 1, hi⟩)) := by
        rw [applyMutation_hash, hstored, Block.calculate_hash]
        exact fun hcontra => hdist hcontra.symm
      simp only [Bool.and_eq_false_iff, decide_eq_false_iff_not]
      exact Or.inl hne1
    exact chainCheck_false_at H (setAt (i + 1) (applyMutation m) s.chain) i hlen hfail

/-- Witness for C1 at a concrete two-block run: the honest state
validates, and overwriting block 1's timestamp with 999 makes the
scan fail. -/
theorem chain_validity_and_tamper_detection_witness :
    Blockchain.is_chain_valid Ht sW = true ∧
    Blockchain.is_chain_valid Ht (tamper (FieldMutation.setTimestamp 999) 1 sW) = false := by
  have hb : buildFrom Ht 0 opsW = some sW := by rfl
  have h := chain_validity_and_tamper_detection Ht 0 opsW sW hb
  exact ⟨h.1, h.2 0 (by decide) (FieldMutation.setTimestamp 999) (by decide)⟩

theorem map_to_dict (l : List Transaction) : l.map Transaction.to_dict = l := by
  induction l with
  | nil => rfl
  | cons t r ih => simp [Transaction.to_dict, ih]

theorem rewardTransaction_sender (miner : String) (id : Nat) (now : ℚ) :
    (rewardTransaction miner id now).sender = systemAddress := rfl

theorem rewardTransaction_status (miner : String) (id : Nat) (now : ℚ) :
    (rewardTransaction miner id now).status = TxStatus.Confirmed := rfl

theorem rewardTransaction_block_number (miner : String) (id : Nat) (now : ℚ) :
    (rewardTransaction miner id now).block_number = none := rfl

/-- C8 (amended): on any honestly built chain, every stored hash
(including the genesis block's) recomputes from the block's own
fields, and every non-genesis (that is, mined) block's hash meets its
difficulty target.  The genesis block is never mined, so nothing
enforces the prefix on it — see the counterexample. -/
theorem built_chain_rehash_and_mined_zeros (H : HashInput → String) (t0 : ℚ)
    (ops : List Op) (s : Blockchain) (h : buildFrom H t0 ops = some s) :
    (∀ b ∈ s.chain, b.hash = Block.calculate_hash H b) ∧
    (∀ b ∈ s.chain.tail, b.hashMeetsDifficulty) := by
  obtain ⟨_, ⟨hHash, hDiff, _⟩, _⟩ := buildFrom_Inv H t0 ops s h
  exact ⟨hHash, hDiff⟩

/-- Witness for C8 (amended) on the concrete two-block run. -/
theorem built_chain_rehash_and_mined_zeros_witness :
    (∀ b ∈ sW.chain, b.hash = Block.calculate_hash Ht b) ∧
    (∀ b ∈ sW.chain.tail, b.hashMeetsDifficulty) :=
  built_chain_rehash_and_mined_zeros Ht 0 opsW sW (by rfl)

/-- Counterexample for C8 as stated: under a hash assignment for which
the serialised genesis content does not begin with zeros, the freshly
initialised chain already violates "every block's stored hash has a
hexadecimal prefix of `difficulty` zero characters" — the source
never mines the genesis block, so nothing enforces its prefix. -/
theorem genesis_difficulty_prefix_fails :
    ¬ ∀ b ∈ (Blockchain.init H1111 0).chain, b.hashMeetsDifficulty := by
  decide

/-- C2 (amended): after a successful mine from an honestly built
state, the returned block's stored transaction list is the
staging-time snapshot of the pool plus the reward transaction: every
embedded record still has `block_number` null, the staged records
still carry status Pending, and only the reward record (pre-set at
creation) carries status Confirmed.  The `Confirmed`/`block_number`
updates of `_process_transaction` hit the pool's transaction objects,
which are discarded when the pool is cleared, never the copies
embedded in the block. -/
theorem mined_block_embeds_staging_time_records (H : HashInput → String)
    (t0 : ℚ) (ops : List Op) (s : Blockchain) (miner : String) (now : ℚ)
    (fuel : Nat) (b : Block) (s2 : Blockchain)
    (hb : buildFrom H t0 ops = some s)
    (hm : Blockchain.mine_pending H miner now fuel s = MineResult.mined b s2) :
    b.transactions = s.pending_transactions ++ [rewardTransaction miner s.nextId now] ∧
    (∀ t ∈ s.pending_transactions, t.status = TxStatus.Pending ∧ t.block_number = none) ∧
    (rewardTransaction miner s.nextId now).status = TxStatus.Confirmed ∧
    (rewardTransaction miner s.nextId now).block_number = none := by
  obtain ⟨latest, hpne, hl, hmine, hproc, hchain, hpend, hnext⟩ :=
    mine_pending_mined_facts H miner now fuel s b s2 hm
  have hspec := mine_block_spec H fuel _ b hmine (Block.create_hash H _ _ _ _ _ _)
  obtain ⟨_, _, _, hbt, _, _, _, _⟩ := hspec
  obtain ⟨_, _, hPool⟩ := buildFrom_Inv H t0 ops s hb
  refine ⟨?_, fun t ht => ⟨(hPool t ht).1, (hPool t ht).2.1⟩, rfl, rfl⟩
  rw [hbt, Block.create_transactions, map_to_dict]

/-- Witness for C2 (amended) on the concrete run. -/
theorem mined_block_embeds_staging_time_records_witness :
    bW.transactions = sPre.pending_transactions ++
      [rewardTransaction devAddr2 sPre.nextId 2] ∧
    (∀ t ∈ sPre.pending_transactions,
      t.status = TxStatus.Pending ∧ t.block_number = none) ∧
    (rewardTransaction devAddr2 sPre.nextId 2).status = TxStatus.Confirmed ∧
    (rewardTransaction devAddr2 sPre.nextId 2).block_number = none :=
  mined_block_embeds_staging_time_records Hc 0
    [Op.stage devAddr1 "0xbb" 1 "" 5 21000 1] sPre devAddr2 2 1 bW sPost
    (by rfl) (by rfl)

/-- Counterexample for C2 as stated: in the concrete successful mine,
not every record embedded in the returned block has status Confirmed
with the block's index recorded — the staged record is still Pending
and every embedded record's block number is null. -/
theorem mined_block_records_not_confirmed :
    ¬ ∀ t ∈ bW.transactions,
        t.status = TxStatus.Confirmed ∧ t.block_number = some bW.index := by
  decide

theorem sumMinted_cons (t : Transaction) (r : List Transaction) :
    sumMinted (t :: r) =
      (if t.sender = systemAddress then t.amount else 0) + sumMinted r := by
  by_cases h : t.sender = systemAddress <;>
    simp [sumMinted, qSum_eq, List.filter_cons, h, qAdd_eq]

theorem sumBurnedFees_cons (t : Transaction) (r : List Transaction) :
    sumBurnedFees (t :: r) =
      (if t.sender = systemAddress then 0 else t.fee) + sumBurnedFees r := by
  by_cases h : t.sender = systemAddress <;>
    simp [sumBurnedFees, qSum_eq, List.filter_cons, h, qAdd_eq]

theorem contrib_sum_eq (l : List Transaction) :
    (l.map (fun t => if t.sender = systemAddress then t.amount else -t.fee)).sum =
      sumMinted l - sumBurnedFees l := by
  induction l with
  | nil => simp [sumMinted, sumBurnedFees, qSum_eq]
  | cons t r ih =>
    rw [List.map_cons, List.sum_cons, ih, sumMinted_cons, sumBurnedFees_cons]
    by_cases h : t.sender = systemAddress <;> simp [h] <;> ring

/-- C4 (amended): mining applies every pooled transaction plus the
reward; the ledger-wide balance total grows by exactly the minted
amounts (transactions whose sender is the reserved system address,
including the reward) and shrinks by the fees of all other
transactions — those fees are debited from senders but credited to no
account, i.e. burned.  Debits therefore exceed credits by the burned
fees, not only by the minted rewards as the claim states. -/
theorem mining_conserves_value_up_to_fee_burn (H : HashInput → String)
    (t0 : ℚ) (ops : List Op) (s : Blockchain) (miner : String) (now : ℚ)
    (fuel : Nat) (b : Block) (s2 : Blockchain)
    (hb : buildFrom H t0 ops = some s)
    (hm : Blockchain.mine_pending H miner now fuel s = MineResult.mined b s2) :
    totalBalance s2.accounts =
      totalBalance s.accounts +
        sumMinted (s.pending_transactions ++ [rewardTransaction miner s.nextId now]) -
        sumBurnedFees (s.pending_transactions ++ [rewardTransaction miner s.nextId now]) := by
  obtain ⟨latest, hpne, hl, hmine, hproc, hchain, hpend, hnext⟩ :=
    mine_pending_mined_facts H miner now fuel s b s2 hm
  obtain ⟨_, _, hPool⟩ := buildFrom_Inv H t0 ops s hb
  have hknown : ∀ t ∈ s.pending_transactions ++ [rewardTransaction miner s.nextId now],
      t.sender = systemAddress ∨ (aget s.accounts t.sender).isSome := by
    intro t ht
    rcases List.mem_append.mp ht with ht | ht
    · exact Or.inr (hPool t ht).2.2
    · simp at ht
      subst ht
      exact Or.inl (rewardTransaction_sender miner s.nextId now)
  have htot := processAll_facts
    (s.pending_transactions ++ [rewardTransaction miner s.nextId now])
    s.accounts s2.accounts hproc hknown
  rw [htot, contrib_sum_eq]
  ring

/-- Witness for C4 (amended) on the concrete run. -/
theorem mining_conserves_value_up_to_fee_burn_witness :
    totalBalance sPost.accounts =
      totalBalance sPre.accounts +
        sumMinted (sPre.pending_transactions ++ [rewardTransaction devAddr2 sPre.nextId 2]) -
        sumBurnedFees (sPre.pending_transactions ++ [rewardTransaction devAddr2 sPre.nextId 2]) :=
  mining_conserves_value_up_to_fee_burn Hc 0
    [Op.stage devAddr1 "0xbb" 1 "" 5 21000 1] sPre devAddr2 2 1 bW sPost
    (by rfl) (by rfl)

/-- Counterexample for C4 as stated: on the concrete mined block, the
total debited from senders does not equal the total credited to
recipients minus the minted reward — the staged transaction's fee
(21000 gas at gas price 5, i.e. 21/200000) is debited but credited to
no one. -/
theorem debits_credits_mismatch :
    sumDebits bW.transactions ≠ sumCredits bW.transactions - sumMinted bW.transactions := by
  have h1 : sumDebits bW.transactions = mkRat 200021 200000 := by decide
  have h2 : sumCredits bW.transactions = 6 := by decide
  have h3 : sumMinted bW.transactions = 5 := by decide
  rw [h1, h2, h3, Rat.mkRat_eq_div]
  norm_num

theorem add_transaction_fst_ok (sender recipient : String) (amount : ℚ)
    (data : String) (gp gl : Nat) (now : ℚ) (s : Blockchain) (a : Account)
    (ha : aget s.accounts sender = some a)
    (hge : ¬ a.balance < qAdd amount
      (Transaction.create sender recipient amount 0 data 0 gp gl s.nextId now).fee) :
    (Blockchain.add_transaction sender recipient amount data gp gl now s).1 =
      Except.ok s.nextId := by
  rw [Blockchain.add_transaction]
  simp only [ha, Transaction.create_amount]
  cases hr : aget s.accounts recipient with
  | none => simp only [hr, if_neg hge]; rfl
  | some rcp => simp only [hr, if_neg hge]; rfl

/-- C5: staging fails with UnknownSender exactly when the sender has
no account record; given a sender record, it fails with
InsufficientBalance exactly when the balance is strictly below
`amount + fee` (the fee derived from the gas parameters before the
check); and on either failure nothing is appended to the pending
pool. -/
theorem staging_error_conditions (sender recipient : String) (amount : ℚ)
    (data : String) (gp gl : Nat) (now : ℚ) (s : Blockchain)
    (res : Except StageError Nat) (s' : Blockchain)
    (h : Blockchain.add_transaction sender recipient amount data gp gl now s = (res, s')) :
    ((res = Except.error StageError.UnknownSender) ↔ aget s.accounts sender = none) ∧
    (∀ a, aget s.accounts sender = some a →
      ((res = Except.error StageError.InsufficientBalance) ↔
        a.balance < amount +
          (Transaction.create sender recipient amount 0 data 0 gp gl s.nextId now).fee)) ∧
    ((∃ e, res = Except.error e) → s'.pending_transactions = s.pending_transactions) := by
  cases hs : aget s.accounts sender with
  | none =>
    rw [add_transaction_unknown sender recipient amount data gp gl now s hs] at h
    injection h with h1 h2
    subst h1
    subst h2
    refine ⟨by simp, ?_, fun _ => rfl⟩
    intro a ha
    cases ha
  | some a =>
    by_cases hlt : a.balance < qAdd amount
        (Transaction.create sender recipient amount 0 data 0 gp gl s.nextId now).fee
    · rw [add_transaction_insufficient sender recipient amount data gp gl now s a hs hlt] at h
      injection h with h1 h2
      subst h1
      refine ⟨by simp [hs], ?_, ?_⟩
      · intro a' ha'
        injection ha' with ha'
        subst ha'
        rw [← qAdd_eq]
        simp [hlt]
      · intro _
        rw [← h2]
        cases hr : aget s.accounts recipient <;> simp only [hr]
    · have hok := add_transaction_fst_ok sender recipient amount data gp gl now s a hs hlt
      rw [h] at hok
      simp only [] at hok
      subst hok
      refine ⟨by simp, ?_, by simp⟩
      intro a' ha'
      injection ha' with ha'
      subst ha'
      rw [← qAdd_eq]
      simp [hlt]

/-- C6: on every successful staging, the transaction is appended to
the pool carrying the sender's pre-call nonce, the sender's stored
nonce becomes exactly one greater, and a further successful staging
from the same sender is assigned that incremented nonce — so nonces
of successive stagings from one sender strictly increase. -/
theorem staging_nonce_assignment (sender recipient : String) (amount : ℚ)
    (data : String) (gp gl : Nat) (now : ℚ) (s : Blockchain) (a : Account)
    (id1 : Nat) (s1 : Blockchain)
    (ha : aget s.accounts sender = some a)
    (h : Blockchain.add_transaction sender recipient amount data gp gl now s =
      (Except.ok id1, s1)) :
    (∃ t, s1.pending_transactions = s.pending_transactions ++ [t] ∧
      t.sender = sender ∧ t.nonce = a.nonce) ∧
    (∃ a1, aget s1.accounts sender = some a1 ∧ a1.nonce = a.nonce + 1) ∧
    (∀ recipient2 amount2 data2 gp2 gl2 now2 id2 s2,
      Blockchain.add_transaction sender recipient2 amount2 data2 gp2 gl2 now2 s1 =
        (Except.ok id2, s2) →
      ∃ t2, s2.pending_transactions = s1.pending_transactions ++ [t2] ∧
        t2.sender = sender ∧ t2.nonce = a.nonce + 1) := by
  obtain ⟨a', ha', hge, hres, hchain, hnext, hpend, hsender, hkeys⟩ :=
    add_transaction_ok_facts sender recipient amount data gp gl now s id1 s1 h
  rw [ha] at ha'
  injection ha' with ha'
  subst ha'
  refine ⟨⟨_, hpend, rfl, rfl⟩, ⟨_, hsender, rfl⟩, ?_⟩
  intro r2 am2 d2 gp2 gl2 now2 id2 s2 h2
  obtain ⟨a2, ha2, _, _, _, _, hpend2, _, _⟩ :=
    add_transaction_ok_facts sender r2 am2 d2 gp2 gl2 now2 s1 id2 s2 h2
  rw [hsender] at ha2
  injection ha2 with ha2
  subst ha2
  exact ⟨_, hpend2, rfl, rfl⟩

/-- Witness for C5: the overdrawing staging fails with
InsufficientBalance and appends nothing to the pool. -/
theorem staging_error_conditions_witness :
    stageIB.1 = Except.error StageError.InsufficientBalance ∧
    stageIB.2.pending_transactions = (Blockchain.init Hc 0).pending_transactions := by
  have h := staging_error_conditions devAddr1 "0xcc" 2000000 "" 5 21000 1
    (Blockchain.init Hc 0) stageIB.1 stageIB.2 rfl
  have ha : aget (Blockchain.init Hc 0).accounts devAddr1 = some accW := by rfl
  have hfee : (Transaction.create devAddr1 "0xcc" 2000000 0 "" 0 5 21000
      (Blockchain.init Hc 0).nextId 1).fee = mkRat 21 200000 := by decide
  have hbal : accW.balance = 1000000 := by decide
  have hlt : accW.balance < 2000000 + (Transaction.create devAddr1 "0xcc" 2000000 0 "" 0
      5 21000 (Blockchain.init Hc 0).nextId 1).fee := by
    rw [hbal, hfee, Rat.mkRat_eq_div]
    norm_num
  have hres := (h.2.1 accW ha).mpr hlt
  exact ⟨hres, h.2.2 ⟨_, hres⟩⟩

/-- Witness for C6: two consecutive stagings from the first dev
account get nonces 0 and 1, and the stored sender nonce is bumped on
each call. -/
theorem staging_nonce_assignment_witness :
    (∃ t, stageN1.2.pending_transactions =
        (Blockchain.init Hc 0).pending_transactions ++ [t] ∧
      t.sender = devAddr1 ∧ t.nonce = accW.nonce) ∧
    (∃ a1, aget stageN1.2.accounts devAddr1 = some a1 ∧ a1.nonce = accW.nonce + 1) ∧
    (∃ t2, stageN2.2.pending_transactions = stageN1.2.pending_transactions ++ [t2] ∧
      t2.sender = devAddr1 ∧ t2.nonce = accW.nonce + 1) := by
  have h := staging_nonce_assignment devAddr1 "0xdd" 1 "" 5 21000 1
    (Blockchain.init Hc 0) accW 0 stageN1.2 (by rfl) (by rfl)
  exact ⟨h.1, h.2.1, h.2.2 "0xdd" 1 "" 5 21000 2 1 stageN2.2 (by rfl)⟩

/-- C7: gas and fee derivation at construction.  `gas_used` is
`min(gas_limit, 21000 + 68 * payload_length)` (the payload length of
an absent payload being 0), and the fee is
`gas_used * gas_price / 1e9`, regardless of the `fee` argument the
caller passed (the binder `fee` does not occur on any right-hand
side).  Nothing in the ledger ever recomputes either field. -/
theorem gas_and_fee_derivation (sender recipient : String) (amount fee : ℚ)
    (data : String) (nonce gp gl id : Nat) (now : ℚ) :
    (Transaction.create sender recipient amount fee data nonce gp gl id now).gas_used =
      min gl (21000 + 68 * data.length) ∧
    (Transaction.create sender recipient amount fee data nonce gp gl id now).fee =
      ((min gl (21000 + 68 * data.length) : Nat) : ℚ) * (gp : ℚ) / 1000000000 := by
  have hmin : min (if data = "" then 21000 else 21000 + data.length * 68) gl =
      min gl (21000 + 68 * data.length) := by
    by_cases hd : data = ""
    · subst hd
      simp [Nat.min_comm]
    · rw [if_neg hd, Nat.min_comm, Nat.mul_comm]
  constructor
  · rw [Transaction.create_gas_used, hmin]
  · rw [Transaction.create_fee, qDiv_eq, qMul_eq, hmin]

/-- C10: when staging fails with InsufficientBalance and the named
recipient previously had no account record, the recipient account
nonetheless exists afterwards with zero balance (its creation precedes
the balance check), while the sender's record — nonce included — and
the pending pool are unchanged. -/
theorem add_transaction_insufficient_newrcp (sender recipient : String)
    (amount : ℚ) (data : String) (gp gl : Nat) (now : ℚ) (s : Blockchain)
    (a : Account) (ha : aget s.accounts sender = some a)
    (hr : aget s.accounts recipient = none)
    (hlt : a.balance < qAdd amount
      (Transaction.create sender recipient amount 0 data 0 gp gl s.nextId now).fee) :
    Blockchain.add_transaction sender recipient amount data gp gl now s =
      (Except.error StageError.InsufficientBalance,
        { s with
            nextId := s.nextId + 1,
            accounts := aset s.accounts recipient
              (Account.new recipient none 0 false 0 now) }) := by
  rw [add_transaction_insufficient sender recipient amount data gp gl now s a ha hlt, hr]

theorem failed_staging_creates_recipient (sender recipient : String) (amount : ℚ)
    (data : String) (gp gl : Nat) (now : ℚ) (s : Blockchain) (a : Account)
    (ha : aget s.accounts sender = some a)
    (hr : aget s.accounts recipient = none)
    (hlt : a.balance < amount +
      (Transaction.create sender recipient amount 0 data 0 gp gl s.nextId now).fee) :
    ∀ res s',
      Blockchain.add_transaction sender recipient amount data gp gl now s = (res, s') →
      res = Except.error StageError.InsufficientBalance ∧
      (∃ rc, aget s'.accounts recipient = some rc ∧ rc.balance = 0) ∧
      aget s'.accounts sender = some a ∧
      s'.pending_transactions = s.pending_transactions := by
  intro res s' h
  have hlt' : a.balance < qAdd amount
      (Transaction.create sender recipient amount 0 data 0 gp gl s.nextId now).fee := by
    rw [qAdd_eq]
    exact hlt
  rw [add_transaction_insufficient_newrcp sender recipient amount data gp gl now s a
    ha hr hlt'] at h
  injection h with h1 h2
  subst h1
  subst h2
  have hsr : sender ≠ recipient := by
    intro hcontra
    rw [hcontra, hr] at ha
    cases ha
  refine ⟨rfl, ⟨Account.new recipient none 0 false 0 now, ?_, rfl⟩, ?_, rfl⟩
  · have hx : aget (aset s.accounts recipient (Account.new recipient none 0 false 0 now))
        recipient = some (Account.new recipient none 0 false 0 now) := by
      rw [aget_aset, if_pos rfl]
    exact hx
  · have hx : aget (aset s.accounts recipient (Account.new recipient none 0 false 0 now))
        sender = some a := by
      rw [aget_aset, if_neg hsr, ha]
    exact hx

/-- Witness for C10 on a fresh ledger: the staging fails with
InsufficientBalance, yet the recipient account 0xee now exists with
zero balance; the sender record and the pool are untouched. -/
theorem failed_staging_creates_recipient_witness :
    stageC10.1 = Except.error StageError.InsufficientBalance ∧
    (∃ rc, aget stageC10.2.accounts "0xee" = some rc ∧ rc.balance = 0) ∧
    aget stageC10.2.accounts devAddr1 = some accW ∧
    stageC10.2.pending_transactions = (Blockchain.init Hc 0).pending_transactions := by
  have hfee : (Transaction.create devAddr1 "0xee" 2000000 0 "" 0 5 21000
      (Blockchain.init Hc 0).nextId 3).fee = mkRat 21 200000 := by decide
  have hbal : accW.balance = 1000000 := by decide
  have hlt : accW.balance < 2000000 + (Transaction.create devAddr1 "0xee" 2000000 0 "" 0
      5 21000 (Blockchain.init Hc 0).nextId 3).fee := by
    rw [hbal, hfee, Rat.mkRat_eq_div]
    norm_num
  exact failed_staging_creates_recipient devAddr1 "0xee" 2000000 "" 5 21000 3
    (Blockchain.init Hc 0) accW (by rfl) (by rfl) hlt stageC10.1 stageC10.2 rfl

theorem timestamp_deltas_telescope :
    ∀ (l : List Block) (hl : l ≠ []),
      qSum (List.zipWith (fun a b => qSub b.timestamp a.timestamp) l l.tail) =
        (l.getLast hl).timestamp - (l.head hl).timestamp := by
  intro l
  induction l with
  | nil => intro hl; exact absurd rfl hl
  | cons x r ih =>
    intro _
    cases r with
    | nil => simp [qSum_eq]
    | cons y rr =>
      have hyr : (y :: rr) ≠ [] := by simp
      have hrec := ih hyr
      rw [List.tail_cons, List.zipWith_cons_cons]
      rw [show qSum (qSub y.timestamp x.timestamp ::
          List.zipWith (fun a b => qSub b.timestamp a.timestamp) (y :: rr) rr) =
        qSub y.timestamp x.timestamp + qSum (List.zipWith
          (fun a b => qSub b.timestamp a.timestamp) (y :: rr) rr) from by
        simp [qSum_eq]]
      rw [show (List.zipWith (fun a b => qSub b.timestamp a.timestamp) (y :: rr) rr) =
        (List.zipWith (fun a b => qSub b.timestamp a.timestamp) (y :: rr) (y :: rr).tail)
          from rfl]
      rw [hrec, qSub_eq, List.getLast_cons hyr]
      simp only [List.head_cons]
      ring

theorem stats_avg_def (s : Blockchain) :
    (Blockchain.get_network_stats s).average_block_time =
      if (List.zipWith (fun a b => qSub b.timestamp a.timestamp)
          (s.chain.take 11) (s.chain.take 11).tail).isEmpty then 0
      else qDiv (qSum (List.zipWith (fun a b => qSub b.timestamp a.timestamp)
          (s.chain.take 11) (s.chain.take 11).tail))
        ((List.zipWith (fun a b => qSub b.timestamp a.timestamp)
          (s.chain.take 11) (s.chain.take 11).tail).length : ℚ) := rfl

theorem stats_tps_def (s : Blockchain) :
    (Blockchain.get_network_stats s).tps =
      if 0 < (Blockchain.get_network_stats s).average_block_time then
        qDiv (((match s.chain.getLast? with
                | some b => b.transactions.length
                | none => 0) : Nat) : ℚ)
          (Blockchain.get_network_stats s).average_block_time
      else 0 := rfl

theorem stats_difficulty_def (s : Blockchain) :
    (Blockchain.get_network_stats s).difficulty =
      match s.chain.getLast? with
      | some b => b.difficulty
      | none => 0 := rfl

theorem blockTimes_length (s : Blockchain) :
    (List.zipWith (fun a b => qSub b.timestamp a.timestamp)
      (s.chain.take 11) (s.chain.take 11).tail).length =
      min 11 s.chain.length - 1 := by
  rw [List.length_zipWith, List.length_tail, List.length_take]
  omega

theorem take_getLast_eq_get (c : List Block) (n : Nat) (hne : c.take n ≠ [])
    (h : (c.take n).length - 1 < c.length) :
    (c.take n).getLast hne = c.get ⟨(c.take n).length - 1, h⟩ := by
  have hn0 : (c.take n).length ≠ 0 := by
    intro h0
    exact hne (List.length_eq_zero.mp h0)
  have hlt : (c.take n).length - 1 < n := by
    rw [List.length_take] at hn0 ⊢
    omega
  have h2 : (c.take n).length - 1 < (c.take n).length := by omega
  have hsome := @List.getElem?_take_of_lt Block c n ((c.take n).length - 1) hlt
  rw [List.getElem?_eq_getElem h2, List.getElem?_eq_getElem h] at hsome
  rw [List.getLast_eq_getElem, List.get_eq_getElem]
  exact Option.some_inj.mp hsome

theorem take_head_eq_get (c : List Block) (n : Nat) (hne : c.take n ≠ [])
    (h : 0 < c.length) :
    (c.take n).head hne = c.get ⟨0, h⟩ := by
  have hn0 : (c.take n).length ≠ 0 := by
    intro h0
    exact hne (List.length_eq_zero.mp h0)
  have hlt : 0 < n := by
    rw [List.length_take] at hn0
    omega
  have h2 : 0 < (c.take n).length := Nat.pos_of_ne_zero hn0
  have hsome := @List.getElem?_take_of_lt Block c n 0 hlt
  rw [List.getElem?_eq_getElem h2, List.getElem?_eq_getElem h] at hsome
  rw [List.head_eq_getElem, List.get_eq_getElem]
  exact Option.some_inj.mp hsome

theorem get_index_congr (c : List Block) (i j : Nat) (hi : i < c.length)
    (hj : j < c.length) (hij : i = j) : c.get ⟨i, hi⟩ = c.get ⟨j, hj⟩ := by
  subst hij
  rfl

theorem getD_of_lt (c : List Block) (i : Nat) (h : i < c.length) :
    c.getD i blankBlock = c.get ⟨i, h⟩ := by
  rw [List.getD_eq_getElem?_getD, List.getElem?_eq_getElem h, List.get_eq_getElem]
  rfl

/-- C9 (amended): the average block time reported by
`get_network_stats` is the arithmetic mean of the pairwise timestamp
deltas over the EARLIEST `min(10, length-1)` inter-block gaps of the
chain — the loop runs over `range(1, min(11, len))`, i.e. the oldest
blocks, not the most recent ones — equivalently the telescoped
quotient below; it is 0 when fewer than two blocks exist.  The other
clauses of the claim hold as stated: tps is the latest block\'s
transaction count divided by the average block time (0 when that
average is not positive), and the reported difficulty is the latest
block\'s. -/
theorem network_stats_characterisation (s : Blockchain) :
    (2 ≤ s.chain.length →
      (Blockchain.get_network_stats s).average_block_time =
        ((s.chain.getD (min 10 (s.chain.length - 1)) blankBlock).timestamp -
            (s.chain.getD 0 blankBlock).timestamp) /
          ((min 10 (s.chain.length - 1) : Nat) : ℚ)) ∧
    (s.chain.length ≤ 1 → (Blockchain.get_network_stats s).average_block_time = 0) ∧
    (0 < (Blockchain.get_network_stats s).average_block_time →
      ∀ b, s.chain.getLast? = some b →
        (Blockchain.get_network_stats s).tps *
          (Blockchain.get_network_stats s).average_block_time =
          (b.transactions.length : ℚ)) ∧
    ((Blockchain.get_network_stats s).average_block_time ≤ 0 →
      (Blockchain.get_network_stats s).tps = 0) ∧
    (∀ b, s.chain.getLast? = some b →
      (Blockchain.get_network_stats s).difficulty = b.difficulty) := by
  have hlen := blockTimes_length s
  refine ⟨?_, ?_, ?_, ?_, ?_⟩
  · intro h2
    rw [stats_avg_def]
    have hfne : s.chain.take 11 ≠ [] := by
      intro hcon
      have := congrArg List.length hcon
      rw [List.length_take, List.length_nil] at this
      omega
    have hbtne : ¬ (List.zipWith (fun a b => qSub b.timestamp a.timestamp)
        (s.chain.take 11) (s.chain.take 11).tail).isEmpty = true := by
      rw [List.isEmpty_iff]
      intro hcon
      have := congrArg List.length hcon
      rw [List.length_nil] at this
      rw [hlen] at this
      omega
    rw [if_neg hbtne, timestamp_deltas_telescope (s.chain.take 11) hfne, qDiv_eq]
    have hkl : (s.chain.take 11).length - 1 < s.chain.length := by
      rw [List.length_take]
      omega
    have hidx : (s.chain.take 11).length - 1 = min 10 (s.chain.length - 1) := by
      rw [List.length_take]
      omega
    have hbt : (List.zipWith (fun a b => qSub b.timestamp a.timestamp)
        (s.chain.take 11) (s.chain.take 11).tail).length =
        min 10 (s.chain.length - 1) := by
      rw [hlen]
      omega
    rw [take_getLast_eq_get s.chain 11 hfne hkl,
      take_head_eq_get s.chain 11 hfne (by omega),
      get_index_congr s.chain ((s.chain.take 11).length - 1)
        (min 10 (s.chain.length - 1)) hkl (by omega) hidx,
      getD_of_lt s.chain (min 10 (s.chain.length - 1)) (by omega),
      getD_of_lt s.chain 0 (by omega), hbt]
  · intro h1
    rw [stats_avg_def]
    have h0 : (List.zipWith (fun a b => qSub b.timestamp a.timestamp)
        (s.chain.take 11) (s.chain.take 11).tail).length = 0 := by
      rw [hlen]
      omega
    rw [if_pos]
    rw [List.isEmpty_iff]
    exact List.length_eq_zero.mp h0
  · intro havg b hb
    rw [stats_tps_def, if_pos havg, hb, qDiv_eq]
    exact div_mul_cancel₀ _ (ne_of_gt havg)
  · intro havg
    rw [stats_tps_def, if_neg (not_lt.mpr havg)]
  · intro b hb
    rw [stats_difficulty_def, hb]

/-- Counterexample for C9 as stated: on the twelve-block state the
reported average block time (1, the mean of the ten oldest gaps) is
not the mean of the deltas over the most recent ten blocks (998/9). -/
theorem average_block_time_not_recent :
    (Blockchain.get_network_stats s12).average_block_time ≠ specAvgRecentBlocks s12 := by
  decide

/-- Witness for C9 (amended) on the twelve-block state: the reported
average is the telescoped mean of the earliest `min(10, len-1)` gaps,
and the reported difficulty is the last block's. -/
theorem network_stats_characterisation_witness :
    (Blockchain.get_network_stats s12).average_block_time =
      ((s12.chain.getD (min 10 (s12.chain.length - 1)) blankBlock).timestamp -
          (s12.chain.getD 0 blankBlock).timestamp) /
        ((min 10 (s12.chain.length - 1) : Nat) : ℚ) ∧
    (Blockchain.get_network_stats s12).difficulty = (statBlock 11 1000).difficulty := by
  have h := network_stats_characterisation s12
  exact ⟨h.1 (by decide), h.2.2.2.2 (statBlock 11 1000) (by decide)⟩

/-- C3 exhibit (code bug): the chain of the freshly built ledger
validates; calling `get_transaction` on the confirmed transaction's id
then mutates the record stored inside block 1 (it writes
`block_number` into the aliased dict), so the chain itself changes and
a subsequent `is_chain_valid` returns false, because the stored hash
no longer matches the recomputed one.  `get_account_transactions`
mutates the stored chain the same way.  The claim — and the source's
own presentation of these functions as read-only getters — says
lookups leave the ledger unchanged. -/
theorem lookup_mutates_state_and_invalidates_chain :
    Blockchain.is_chain_valid Hd s3 = true ∧
    (Blockchain.get_transaction 0 s3).2.chain ≠ s3.chain ∧
    Blockchain.is_chain_valid Hd (Blockchain.get_transaction 0 s3).2 = false ∧
    (Blockchain.get_account_transactions "0xbb" s3).2.chain ≠ s3.chain := by
  decide
